import Mathlib

/-!
Verification of the arbitrage bot core (Rust sources under src/Bot/src) against
its natural-language specification.  The Rust code is shallowly embedded:
unsigned 256-bit integers (alloy U256) become natural numbers together with
explicit reductions modulo 2 ^ 256 where the Rust operation wraps or
saturates, u128 and u64 likewise, fallible operations return Option, and
stateful code is modelled by explicit state passing.  Floating-point (f64)
values, where a claim depends only on control flow and not on rounding, are
modelled by an abstract carrier explained at the definition site.
-/

namespace ArbBot

/-! ## Fixed-point primitives (src/Bot/src/math.rs, module exact)

Embedding of exact::mul_div and exact::mul_div_rounding_up.  In the Rust
source a U256 value is a natural number below 2 ^ 256; checked_mul returns
None exactly when the product reaches 2 ^ 256, saturating_mul clamps at
2 ^ 256 - 1, and plain addition or multiplication wraps modulo 2 ^ 256 in
release builds.  Division and remainder are euclidean on naturals. -/

/-- Embedding of U256 saturating_mul: the product clamped at 2 ^ 256 - 1. -/
def saturating_mul (a b : ℕ) : ℕ := min (a * b) (2 ^ 256 - 1)

/-- Embedding of exact::mul_div (math.rs): a * b / denominator with the
decomposition fallback the source uses when the 256-bit product overflows.
The branch structure mirrors the source line by line: zero denominator and
zero factors return zero, the checked product path divides directly, the
overflow path decomposes big = q * denominator + r and falls back once more
when r * small overflows, dropping the r * r2 / denominator term entirely
when even that product overflows. -/
def mul_div (a b denominator : ℕ) : ℕ :=
  if denominator = 0 then 0
  else if a = 0 ∨ b = 0 then 0
  else if a * b < 2 ^ 256 then a * b / denominator
  else
    let big := if b ≤ a then a else b
    let small := if b ≤ a then b else a
    let q := big / denominator
    let r := big % denominator
    let term1 := saturating_mul q small
    let term2 :=
      if r * small < 2 ^ 256 then r * small / denominator
      else
        let q2 := small / denominator
        let r2 := small % denominator
        let inner := saturating_mul r q2
        let rest := if r * r2 < 2 ^ 256 then r * r2 / denominator else 0
        inner + rest
    (term1 + term2) % 2 ^ 256

/-- Embedding of exact::mul_div_rounding_up (math.rs): on the checked-product
path it adds one exactly when the remainder is nonzero; on the overflow path
it always adds one (the source comment says it stays on the safe side). -/
def mul_div_rounding_up (a b denominator : ℕ) : ℕ :=
  let result := mul_div a b denominator
  if a * b < 2 ^ 256 then
    if 0 < a * b % denominator then (result + 1) % 2 ^ 256 else result
  else (result + 1) % 2 ^ 256

/-- C1: the spec says mul_div and mul_div_rounding_up are exact for every
a, b, c with the 512-bit product and c > 0.  This fails: at
a = b = 2 ^ 255 - 1, c = 2 ^ 255 the true floor 2 ^ 255 - 2 and true ceiling
2 ^ 255 - 1 both fit in 256 bits, yet the decomposition fallback drops the
r * r2 / c term (both r * small and r * r2 overflow 256 bits) and mul_div
returns 0 while mul_div_rounding_up returns 1. -/
theorem mul_div_inexact_on_overflow :
    mul_div (2 ^ 255 - 1) (2 ^ 255 - 1) (2 ^ 255) = 0 ∧
    (2 ^ 255 - 1) * (2 ^ 255 - 1) / 2 ^ 255 = 2 ^ 255 - 2 ∧
    mul_div_rounding_up (2 ^ 255 - 1) (2 ^ 255 - 1) (2 ^ 255) = 1 ∧
    ((2 ^ 255 - 1) * (2 ^ 255 - 1) + (2 ^ 255 - 1)) / 2 ^ 255 = 2 ^ 255 - 1 := by
  refine ⟨?_, ?_, ?_, ?_⟩ <;> decide

/-! ## Submission minProfit (src/Bot/src/strategy.rs)

Embedding of determine_slippage_factor_bps and compute_min_profit_exact and
of their composition in evaluate_and_execute: the exact U256 arbitrage
profit (the only profit input of this path; no floating-point value enters)
is multiplied by the slippage factor and clamped into u128. -/

/-- Embedding of strategy.rs determine_slippage_factor_bps: slippage factor
chosen by the minimum of the two u128 active liquidities. -/
def determine_slippage_factor_bps (buy_liquidity sell_liquidity : ℕ) : ℕ :=
  let min_liquidity := min buy_liquidity sell_liquidity
  if 1000000000000000000 ≤ min_liquidity then 9990
  else if 10000000000000000 ≤ min_liquidity then 9950
  else 9500

/-- Embedding of strategy.rs compute_min_profit_exact: U256 multiplication
(wrapping modulo 2 ^ 256 in release builds) by the slippage factor, division
by 10000, then a clamp into u128. -/
def compute_min_profit_exact (exact_profit_wei slippage_factor_bps : ℕ) : ℕ :=
  let min_profit_u256 := exact_profit_wei * slippage_factor_bps % 2 ^ 256 / 10000
  if 2 ^ 128 - 1 < min_profit_u256 then 2 ^ 128 - 1 else min_profit_u256

/-- Embedding of the minProfit data flow in evaluate_and_execute
(strategy.rs): the slippage factor is computed from the two pool liquidities
and applied to the exact U256 profit. -/
def submission_min_profit (exact_profit_wei buy_liquidity sell_liquidity : ℕ) : ℕ :=
  compute_min_profit_exact exact_profit_wei
    (determine_slippage_factor_bps buy_liquidity sell_liquidity)

/-- C2: minProfit is the exact U256 profit multiplied by the slippage factor
determined by the minimum of the two active liquidities: at least 10 ^ 18
gives 9990 / 10000, at least 10 ^ 16 gives 9950 / 10000, otherwise
9500 / 10000 (clamped into u128; the hypothesis rules out the wrap of the
U256 product). -/
theorem submission_min_profit_spec (e bl sl : ℕ) (h : e * 9990 < 2 ^ 256) :
    submission_min_profit e bl sl =
      min (e * (if 10 ^ 18 ≤ min bl sl then 9990
                else if 10 ^ 16 ≤ min bl sl then 9950 else 9500) / 10000)
        (2 ^ 128 - 1) := by
  have h95 : e * 9500 < 2 ^ 256 := lt_of_le_of_lt (by gcongr; norm_num) h
  have h995 : e * 9950 < 2 ^ 256 := lt_of_le_of_lt (by gcongr; norm_num) h
  have e18 : (1000000000000000000 : ℕ) = 10 ^ 18 := by norm_num
  have e16 : (10000000000000000 : ℕ) = 10 ^ 16 := by norm_num
  simp only [submission_min_profit, compute_min_profit_exact,
    determine_slippage_factor_bps]
  rw [e18, e16]
  by_cases c18 : 10 ^ 18 ≤ min bl sl
  · rw [if_pos c18, Nat.mod_eq_of_lt h]
    split_ifs <;> omega
  · rw [if_neg c18]
    by_cases c16 : 10 ^ 16 ≤ min bl sl
    · rw [if_pos c16, Nat.mod_eq_of_lt h995]
      split_ifs <;> omega
    · rw [if_neg c16, Nat.mod_eq_of_lt h95]
      split_ifs <;> omega

/-- Witness for submission_min_profit_spec at one WETH of exact profit and
two deep pools. -/
theorem submission_min_profit_spec_witness :
    submission_min_profit (10 ^ 18) (10 ^ 18) (10 ^ 18) = 999000000000000000 := by
  rw [submission_min_profit_spec (10 ^ 18) (10 ^ 18) (10 ^ 18) (by norm_num)]
  norm_num

/-! ## Dynamic priority fee (src/Bot/src/strategy.rs, execute_inner)

The source computes, when the bribe is positive,
gas_with_buffer = floor(simulated_gas * 1.10) in f64, then
actual_gas = max gas_with_buffer 100000, fee = bribe_wei / actual_gas and
finally max fee 1000000.  The f64 buffer multiplication is taken here as an
input since the claim at hand is independent of its rounding. -/

/-- Embedding of the priority-fee computation of execute_inner
(strategy.rs).  Returns none when the bribe is zero (the source then leaves
the field unset). -/
def execute_inner_priority_fee (bribe_wei gas_with_buffer : ℕ) : Option ℕ :=
  if 0 < bribe_wei then
    let actual_gas := max gas_with_buffer 100000
    let fee := bribe_wei / actual_gas
    some (max fee 1000000)
  else none

/-- C7: the spec says the priority fee is floored at 1 gwei (10 ^ 9 wei per
gas) and the source comment says Minimum 1 Gwei, but the code floors at the
constant 1000000 = 10 ^ 6: with bribe_wei = 1 and simulated_gas = 350000
(gas_with_buffer = 385000) the submitted fee is 10 ^ 6 wei per gas, one
thousand times below 1 gwei. -/
theorem execute_inner_priority_fee_below_one_gwei :
    execute_inner_priority_fee 1 385000 = some 1000000 ∧ 1000000 < 10 ^ 9 := by
  constructor
  · decide
  · norm_num

/-! ## Nonce manager (src/Bot/src/types.rs)

NonceManager is a single AtomicU64.  Its state is modelled as a natural
number below 2 ^ 64; fetch_add and fetch_sub on AtomicU64 always wrap. -/

/-- Embedding of NonceManager.get_and_increment: returns the pre-increment
value and the wrapped successor state. -/
def nonce_get_and_increment (counter : ℕ) : ℕ × ℕ :=
  (counter, (counter + 1) % 2 ^ 64)

/-- Embedding of NonceManager.rollback: a wrapping decrement
(fetch_sub 1 on AtomicU64). -/
def nonce_rollback (counter : ℕ) : ℕ :=
  (counter + (2 ^ 64 - 1)) % 2 ^ 64

/-- C9: NonceManager arithmetic is modulo 2 ^ 64: rollback at 0 wraps to
2 ^ 64 - 1 rather than failing or saturating, rollback undoes
get_and_increment for every in-range counter, and get_and_increment at
2 ^ 64 - 1 wraps the counter to 0. -/
theorem nonce_rollback_wraps :
    nonce_rollback 0 = 2 ^ 64 - 1 ∧
    (∀ c : ℕ, c < 2 ^ 64 → nonce_rollback (nonce_get_and_increment c).2 = c) ∧
    (nonce_get_and_increment (2 ^ 64 - 1)).2 = 0 := by
  refine ⟨by decide, fun c hc => ?_, by decide⟩
  unfold nonce_rollback nonce_get_and_increment
  omega

/-- Witness for nonce_rollback_wraps at counter 41. -/
theorem nonce_rollback_wraps_witness :
    nonce_rollback (nonce_get_and_increment 41).2 = 41 :=
  nonce_rollback_wraps.2.1 41 (by norm_num)

/-! ## Nonce manager interleavings (C8)

Sequential interleavings of get_and_increment and rollback calls are lists
of operations executed against the counter state. -/

/-- One NonceManager call appearing in an interleaving. -/
inductive NonceOp
  | get_and_increment
  | rollback
  deriving DecidableEq

/-- Run a list of NonceManager calls from a starting counter; returns the
final counter and the values returned by the get_and_increment calls, in
call order. -/
def nonce_run : ℕ → List NonceOp → ℕ × List ℕ
  | c, [] => (c, [])
  | c, NonceOp.get_and_increment :: ops =>
      let step := nonce_get_and_increment c
      let rest := nonce_run step.2 ops
      (rest.1, step.1 :: rest.2)
  | c, NonceOp.rollback :: ops => nonce_run (nonce_rollback c) ops

/-- Helper: unfolding equation of nonce_run on the empty interleaving. -/
theorem nonce_run_nil (c : ℕ) : nonce_run c [] = (c, []) := rfl

/-- Helper: unfolding equation of nonce_run on a leading get_and_increment. -/
theorem nonce_run_cons_gai (c : ℕ) (ops : List NonceOp) :
    nonce_run c (NonceOp.get_and_increment :: ops)
      = ((nonce_run ((c + 1) % 2 ^ 64) ops).1,
         c :: (nonce_run ((c + 1) % 2 ^ 64) ops).2) := rfl

/-- Helper: unfolding equation of nonce_run on a leading rollback. -/
theorem nonce_run_cons_rollback (c : ℕ) (ops : List NonceOp) :
    nonce_run c (NonceOp.rollback :: ops)
      = nonce_run ((c + (2 ^ 64 - 1)) % 2 ^ 64) ops := by
  show ((nonce_run (nonce_rollback c) ops).1, (nonce_run (nonce_rollback c) ops).2)
      = nonce_run ((c + (2 ^ 64 - 1)) % 2 ^ 64) ops
  rw [show nonce_rollback c = (c + (2 ^ 64 - 1)) % 2 ^ 64 from rfl]

/-- Helper: the final counter only depends on the operation counts, modulo
2 ^ 64. -/
theorem nonce_run_fst (ops : List NonceOp) : ∀ n : ℕ, n < 2 ^ 64 →
    (nonce_run n ops).1 =
      (n + (2 ^ 64 - 1) * ops.count NonceOp.rollback
        + ops.count NonceOp.get_and_increment) % 2 ^ 64 := by
  induction ops with
  | nil =>
    intro n hn
    rw [nonce_run_nil]
    simp only [List.count_nil]
    omega
  | cons op ops ih =>
    intro n hn
    cases op with
    | get_and_increment =>
      have h1 : (n + 1) % 2 ^ 64 < 2 ^ 64 := Nat.mod_lt _ (by norm_num)
      rw [nonce_run_cons_gai, ih _ h1]
      have hc : (NonceOp.get_and_increment :: ops).count NonceOp.rollback
          = ops.count NonceOp.rollback := by simp [List.count_cons]
      have hc2 : (NonceOp.get_and_increment :: ops).count NonceOp.get_and_increment
          = ops.count NonceOp.get_and_increment + 1 := by simp [List.count_cons]
      rw [hc, hc2]
      omega
    | rollback =>
      have h1 : (n + (2 ^ 64 - 1)) % 2 ^ 64 < 2 ^ 64 := Nat.mod_lt _ (by norm_num)
      rw [nonce_run_cons_rollback, ih _ h1]
      have hc : (NonceOp.rollback :: ops).count NonceOp.rollback
          = ops.count NonceOp.rollback + 1 := by simp [List.count_cons]
      have hc2 : (NonceOp.rollback :: ops).count NonceOp.get_and_increment
          = ops.count NonceOp.get_and_increment := by simp [List.count_cons]
      rw [hc, hc2]
      omega

/-- Helper: running k get_and_increment calls first returns the consecutive
values n, n + 1, ..., n + k - 1 and leaves the counter at n + k. -/
theorem nonce_run_replicate_gai (k : ℕ) : ∀ (n : ℕ) (rest : List NonceOp),
    n + k < 2 ^ 64 →
    nonce_run n (List.replicate k NonceOp.get_and_increment ++ rest)
      = ((nonce_run (n + k) rest).1,
         List.range' n k ++ (nonce_run (n + k) rest).2) := by
  induction k with
  | zero =>
    intro n rest _
    simp only [List.replicate_zero, List.nil_append, List.range'_zero,
      Nat.add_zero]
  | succ k ih =>
    intro n rest hn
    rw [List.replicate_succ, List.cons_append, nonce_run_cons_gai,
      Nat.mod_eq_of_lt (by omega), ih (n + 1) rest (by omega),
      List.range'_succ]
    have hkn : n + 1 + k = n + (k + 1) := by omega
    rw [hkn]
    rfl

/-- Helper: running r rollback calls from counter c with r ≤ c < 2 ^ 64
returns no values and leaves the counter at c - r. -/
theorem nonce_run_replicate_rollback (r : ℕ) : ∀ c : ℕ,
    r ≤ c → c < 2 ^ 64 →
    nonce_run c (List.replicate r NonceOp.rollback) = (c - r, []) := by
  induction r with
  | zero =>
    intro c _ _
    rw [List.replicate_zero, nonce_run_nil]
    simp
  | succ r ih =>
    intro c hr hc
    have hcm : (c + (2 ^ 64 - 1)) % 2 ^ 64 = c - 1 := by omega
    rw [List.replicate_succ, nonce_run_cons_rollback, hcm]
    rw [ih (c - 1) (by omega) (by omega)]
    have hsub : c - 1 - r = c - (r + 1) := by omega
    rw [hsub]

/-- C8 counterexample: the interleaving get_and_increment, rollback,
get_and_increment from n = 5 has k = 2 and r = 1 but returns the values
5, 5, not the multiset 5, 6 the claim asserts (the final counter 6 = n + k - r
does hold). -/
theorem nonce_run_interleaving_counterexample :
    (nonce_run 5 [NonceOp.get_and_increment, NonceOp.rollback,
        NonceOp.get_and_increment]).2 = [5, 5] ∧
    ¬ (nonce_run 5 [NonceOp.get_and_increment, NonceOp.rollback,
        NonceOp.get_and_increment]).2.Perm [5, 6] ∧
    (nonce_run 5 [NonceOp.get_and_increment, NonceOp.rollback,
        NonceOp.get_and_increment]).1 = 6 := by
  refine ⟨by decide, ?_, by decide⟩
  intro hperm
  have hcount := hperm.count_eq 6
  rw [show (nonce_run 5 [NonceOp.get_and_increment, NonceOp.rollback,
      NonceOp.get_and_increment]).2 = [5, 5] by decide] at hcount
  simp at hcount

/-- C8 (amended): for every interleaving of k get_and_increment and
r ≤ k rollback calls from n (no wrap: n + k < 2 ^ 64) the final counter is
n + k - r; and when every rollback comes after all get_and_increment calls
the returned values are exactly n, n + 1, ..., n + k - 1 (so the r values
above the final counter, the highest ones, are the ones given back).  In a
general interleaving the returned values need not be distinct: a
get_and_increment following a rollback returns an already returned value. -/
theorem nonce_run_spec :
    (∀ (n : ℕ) (ops : List NonceOp),
      ops.count NonceOp.rollback ≤ ops.count NonceOp.get_and_increment →
      n + ops.count NonceOp.get_and_increment < 2 ^ 64 →
      (nonce_run n ops).1 =
        n + ops.count NonceOp.get_and_increment - ops.count NonceOp.rollback) ∧
    (∀ n k r : ℕ, r ≤ k → n + k < 2 ^ 64 →
      nonce_run n (List.replicate k NonceOp.get_and_increment
          ++ List.replicate r NonceOp.rollback)
        = (n + k - r, List.range' n k)) := by
  constructor
  · intro n ops hrk hnk
    rw [nonce_run_fst ops n (by omega)]
    omega
  · intro n k r hrk hnk
    rw [nonce_run_replicate_gai k n _ hnk,
      nonce_run_replicate_rollback r (n + k) (by omega) hnk]
    simp

/-- Witness for nonce_run_spec: n = 7, two get_and_increment calls then one
rollback. -/
theorem nonce_run_spec_witness :
    nonce_run 7 (List.replicate 2 NonceOp.get_and_increment
        ++ List.replicate 1 NonceOp.rollback) = (8, [7, 8]) := by
  have h := nonce_run_spec.2 7 2 1 (by norm_num) (by norm_num)
  simpa [List.range'] using h

/-! ## Compact calldata codec (src/Bot/src/simulator.rs)

Bytes are natural numbers below 256, byte strings are lists.  Addresses go
through the codec as their 20-byte slices, U256, u128 and u32 values as
fixed-width big-endian byte strings. -/

/-- Big-endian byte string of fixed width (the to_be_bytes of the Rust
integer types, width 32 for U256, 16 for u128, 4 for u32). -/
def toBeBytes : ℕ → ℕ → List ℕ
  | 0, _ => []
  | w + 1, n => toBeBytes w (n / 256) ++ [n % 256]

/-- Big-endian value of a byte string (the from_be_bytes of the Rust
integer types). -/
def fromBeBytes (bytes : List ℕ) : ℕ :=
  bytes.foldl (fun acc b => acc * 256 + b) 0

/-- Embedding of simulator.rs encode_compact_calldata: plain concatenation
of the nine fields, 20 + 20 + 20 + 20 + 32 + 1 + 1 + 16 + 4 = 134 bytes. -/
def encode_compact_calldata (pool_a pool_b owed_token received_token : List ℕ)
    (amount_in_wei uni_direction aero_direction min_profit deadline_block : ℕ) :
    List ℕ :=
  pool_a ++ pool_b ++ owed_token ++ received_token ++
    toBeBytes 32 amount_in_wei ++ [uni_direction] ++ [aero_direction] ++
    toBeBytes 16 min_profit ++ toBeBytes 4 deadline_block

/-- Embedding of simulator.rs decode_compact_calldata: rejects any length
other than 134, then reads the fixed slices back (the two direction bytes
are read by index). -/
def decode_compact_calldata (data : List ℕ) :
    Option (List ℕ × List ℕ × List ℕ × List ℕ × ℕ × ℕ × ℕ × ℕ × ℕ) :=
  if data.length = 134 then
    some ((data.drop 0).take 20, (data.drop 20).take 20, (data.drop 40).take 20,
      (data.drop 60).take 20, fromBeBytes ((data.drop 80).take 32),
      (data.drop 112).headD 0, (data.drop 113).headD 0,
      fromBeBytes ((data.drop 114).take 16), fromBeBytes ((data.drop 130).take 4))
  else none

/-- Helper: toBeBytes has the requested width. -/
theorem toBeBytes_length (w : ℕ) : ∀ n : ℕ, (toBeBytes w n).length = w := by
  induction w with
  | zero => intro n; rfl
  | succ w ih => intro n; simp [toBeBytes, ih]

/-- Helper: fromBeBytes from a nonzero accumulator. -/
theorem fromBeBytes_foldl (l : List ℕ) : ∀ a : ℕ,
    l.foldl (fun acc b => acc * 256 + b) a = a * 256 ^ l.length + fromBeBytes l := by
  induction l with
  | nil => intro a; simp [fromBeBytes]
  | cons b l ih =>
    intro a
    have hbl : fromBeBytes (b :: l) = b * 256 ^ l.length + fromBeBytes l := by
      show l.foldl (fun acc b => acc * 256 + b) (0 * 256 + b) = _
      rw [ih (0 * 256 + b)]
      ring
    show l.foldl (fun acc b => acc * 256 + b) (a * 256 + b)
        = a * 256 ^ (b :: l).length + fromBeBytes (b :: l)
    rw [ih (a * 256 + b), hbl, List.length_cons]
    ring

/-- Helper: fromBeBytes inverts toBeBytes below the width bound. -/
theorem fromBeBytes_toBeBytes (w : ℕ) : ∀ n : ℕ, n < 256 ^ w →
    fromBeBytes (toBeBytes w n) = n := by
  induction w with
  | zero => intro n hn; interval_cases n; rfl
  | succ w ih =>
    intro n hn
    have hdiv : n / 256 < 256 ^ w := by
      rw [Nat.div_lt_iff_lt_mul (by norm_num)]
      calc n < 256 ^ (w + 1) := hn
        _ = 256 ^ w * 256 := by ring
    have hstep : fromBeBytes (toBeBytes (w + 1) n)
        = fromBeBytes (toBeBytes w (n / 256)) * 256 + n % 256 := by
      show (toBeBytes w (n / 256) ++ [n % 256]).foldl
          (fun acc b => acc * 256 + b) 0 = _
      rw [List.foldl_append]
      rfl
    rw [hstep, ih (n / 256) hdiv]
    omega

/-- Helper: encoded payloads are exactly 134 bytes long. -/
theorem encode_compact_calldata_length
    (pool_a pool_b owed_token received_token : List ℕ)
    (amount_in_wei uni_direction aero_direction min_profit deadline_block : ℕ)
    (ha : pool_a.length = 20) (hb : pool_b.length = 20)
    (ho : owed_token.length = 20) (hr : received_token.length = 20) :
    (encode_compact_calldata pool_a pool_b owed_token received_token
      amount_in_wei uni_direction aero_direction min_profit deadline_block).length
      = 134 := by
  simp [encode_compact_calldata, ha, hb, ho, hr, toBeBytes_length]

set_option maxHeartbeats 2000000 in
/-- C5: codec laws.  Every encoded payload is exactly 134 bytes; decoding an
encoded payload returns exactly the encoded tuple (addresses are 20-byte
strings, amount below 2 ^ 256, minProfit below 2 ^ 128, deadline below
2 ^ 32); and decoding any byte string whose length is not 134 returns
none. -/
theorem compact_calldata_codec :
    (∀ (pa pb ot rt : List ℕ) (a u v mp db : ℕ),
      pa.length = 20 → pb.length = 20 → ot.length = 20 → rt.length = 20 →
      (encode_compact_calldata pa pb ot rt a u v mp db).length = 134) ∧
    (∀ (pa pb ot rt : List ℕ) (a u v mp db : ℕ),
      pa.length = 20 → pb.length = 20 → ot.length = 20 → rt.length = 20 →
      a < 2 ^ 256 → mp < 2 ^ 128 → db < 2 ^ 32 →
      decode_compact_calldata (encode_compact_calldata pa pb ot rt a u v mp db)
        = some (pa, pb, ot, rt, a, u, v, mp, db)) ∧
    (∀ data : List ℕ, data.length ≠ 134 → decode_compact_calldata data = none) := by
  refine ⟨encode_compact_calldata_length, ?_, ?_⟩
  · intro pa pb ot rt a u v mp db ha hb ho hr hA hMP hDB
    have hlen := encode_compact_calldata_length pa pb ot rt a u v mp db ha hb ho hr
    have hbodyE : encode_compact_calldata pa pb ot rt a u v mp db
        = pa ++ (pb ++ (ot ++ (rt ++ (toBeBytes 32 a ++ ([u] ++ ([v] ++
            (toBeBytes 16 mp ++ toBeBytes 4 db))))))) := by
      unfold encode_compact_calldata
      simp only [List.append_assoc]
    have d20 : (encode_compact_calldata pa pb ot rt a u v mp db).drop 20
        = pb ++ (ot ++ (rt ++ (toBeBytes 32 a ++ ([u] ++ ([v] ++
            (toBeBytes 16 mp ++ toBeBytes 4 db)))))) := by
      rw [hbodyE]; exact List.drop_left' ha
    have d40 : (encode_compact_calldata pa pb ot rt a u v mp db).drop 40
        = ot ++ (rt ++ (toBeBytes 32 a ++ ([u] ++ ([v] ++
            (toBeBytes 16 mp ++ toBeBytes 4 db))))) := by
      have h2 : (encode_compact_calldata pa pb ot rt a u v mp db).drop 40
          = ((encode_compact_calldata pa pb ot rt a u v mp db).drop 20).drop 20 := by
        rw [List.drop_drop]
      rw [h2, d20]; exact List.drop_left' hb
    have d60 : (encode_compact_calldata pa pb ot rt a u v mp db).drop 60
        = rt ++ (toBeBytes 32 a ++ ([u] ++ ([v] ++
            (toBeBytes 16 mp ++ toBeBytes 4 db)))) := by
      have h2 : (encode_compact_calldata pa pb ot rt a u v mp db).drop 60
          = ((encode_compact_calldata pa pb ot rt a u v mp db).drop 40).drop 20 := by
        rw [List.drop_drop]
      rw [h2, d40]; exact List.drop_left' ho
    have d80 : (encode_compact_calldata pa pb ot rt a u v mp db).drop 80
        = toBeBytes 32 a ++ ([u] ++ ([v] ++
            (toBeBytes 16 mp ++ toBeBytes 4 db))) := by
      have h2 : (encode_compact_calldata pa pb ot rt a u v mp db).drop 80
          = ((encode_compact_calldata pa pb ot rt a u v mp db).drop 60).drop 20 := by
        rw [List.drop_drop]
      rw [h2, d60]; exact List.drop_left' hr
    have d112 : (encode_compact_calldata pa pb ot rt a u v mp db).drop 112
        = [u] ++ ([v] ++ (toBeBytes 16 mp ++ toBeBytes 4 db)) := by
      have h2 : (encode_compact_calldata pa pb ot rt a u v mp db).drop 112
          = ((encode_compact_calldata pa pb ot rt a u v mp db).drop 80).drop 32 := by
        rw [List.drop_drop]
      rw [h2, d80]; exact List.drop_left' (toBeBytes_length 32 a)
    have d113 : (encode_compact_calldata pa pb ot rt a u v mp db).drop 113
        = [v] ++ (toBeBytes 16 mp ++ toBeBytes 4 db) := by
      have h2 : (encode_compact_calldata pa pb ot rt a u v mp db).drop 113
          = ((encode_compact_calldata pa pb ot rt a u v mp db).drop 112).drop 1 := by
        rw [List.drop_drop]
      rw [h2, d112]
      rfl
    have d114 : (encode_compact_calldata pa pb ot rt a u v mp db).drop 114
        = toBeBytes 16 mp ++ toBeBytes 4 db := by
      have h2 : (encode_compact_calldata pa pb ot rt a u v mp db).drop 114
          = ((encode_compact_calldata pa pb ot rt a u v mp db).drop 113).drop 1 := by
        rw [List.drop_drop]
      rw [h2, d113]
      rfl
    have d130 : (encode_compact_calldata pa pb ot rt a u v mp db).drop 130
        = toBeBytes 4 db := by
      have h2 : (encode_compact_calldata pa pb ot rt a u v mp db).drop 130
          = ((encode_compact_calldata pa pb ot rt a u v mp db).drop 114).drop 16 := by
        rw [List.drop_drop]
      rw [h2, d114]; exact List.drop_left' (toBeBytes_length 16 mp)
    simp only [decode_compact_calldata, if_pos hlen, List.drop_zero,
      Option.some.injEq, Prod.mk.injEq]
    refine ⟨?_, ?_, ?_, ?_, ?_, ?_, ?_, ?_, ?_⟩
    · rw [hbodyE]; exact List.take_left' ha
    · rw [d20]; exact List.take_left' hb
    · rw [d40]; exact List.take_left' ho
    · rw [d60]; exact List.take_left' hr
    · rw [d80, List.take_left' (toBeBytes_length 32 a)]
      exact fromBeBytes_toBeBytes 32 a (by calc a < 2 ^ 256 := hA
        _ = 256 ^ 32 := by norm_num)
    · rw [d112]; rfl
    · rw [d113]; rfl
    · rw [d114, List.take_left' (toBeBytes_length 16 mp)]
      exact fromBeBytes_toBeBytes 16 mp (by calc mp < 2 ^ 128 := hMP
        _ = 256 ^ 16 := by norm_num)
    · rw [d130, List.take_of_length_le (le_of_eq (toBeBytes_length 4 db))]
      exact fromBeBytes_toBeBytes 4 db (by calc db < 2 ^ 32 := hDB
        _ = 256 ^ 4 := by norm_num)
  · intro data hne
    simp only [decode_compact_calldata, if_neg hne]

/-- Witness for compact_calldata_codec: a concrete payload round-trips. -/
theorem compact_calldata_codec_witness :
    decode_compact_calldata (encode_compact_calldata
        (List.replicate 20 1) (List.replicate 20 2) (List.replicate 20 3)
        (List.replicate 20 4) 7 0 1 255 16909060)
      = some (List.replicate 20 1, List.replicate 20 2, List.replicate 20 3,
          List.replicate 20 4, 7, 0, 1, 255, 16909060) :=
  compact_calldata_codec.2.1 _ _ _ _ 7 0 1 255 16909060
    (by simp) (by simp) (by simp) (by simp)
    (by norm_num) (by norm_num) (by norm_num)

/-! ## Optimizer control flow (src/Bot/src/math.rs, find_optimal_amount_with_bitmap)

The optimizer is f64 code.  Its control flow is embedded over an extended
value type EF mirroring the IEEE special values the source manipulates
(NaN, plus and minus infinity, finite values); finite arithmetic is taken
exact over the rationals, which is the one idealization (the claim under
study only compares values far from any rounding boundary).  Exact
rationals are carried by Exq, a reduced fraction with positive
denominator.  The pool states and parameters enter the source optimizer
solely through the two max_safe_swap_amount caps and through
compute_arbitrage_profit_with_bitmap, which the derivative helpers call as
a black box; both are therefore parameters of the embedding, so that a
statement over every cap and every profit function covers every pool state
and parameter set. -/

/-- Exact rational: a fraction kept in lowest terms with positive
denominator by the smart constructor mk2. -/
structure Exq where
  num : ℤ
  den : ℤ
  deriving DecidableEq

/-- Normalizing constructor: sign moved to the numerator, fraction
reduced; a zero denominator falls back to zero (never hit by the
embedding, which tests denominators first). -/
def Exq.mk2 (n d : ℤ) : Exq :=
  if d = 0 then ⟨0, 1⟩ else
  let s : ℤ := if d < 0 then -1 else 1
  let n2 := s * n
  let d2 := s * d
  let g : ℤ := Int.gcd n2 d2
  ⟨n2 / g, d2 / g⟩

/-- Exact addition. -/
def Exq.add (a b : Exq) : Exq :=
  Exq.mk2 (a.num * b.den + b.num * a.den) (a.den * b.den)

/-- Exact negation. -/
def Exq.neg (a : Exq) : Exq := ⟨-a.num, a.den⟩

/-- Exact multiplication. -/
def Exq.mul (a b : Exq) : Exq := Exq.mk2 (a.num * b.num) (a.den * b.den)

/-- Exact division (the caller tests the divisor for zero first). -/
def Exq.div (a b : Exq) : Exq := Exq.mk2 (a.num * b.den) (a.den * b.num)

/-- Exact absolute value. -/
def Exq.abs (a : Exq) : Exq := ⟨|a.num|, a.den⟩

/-- Strict order by cross multiplication (denominators positive). -/
def Exq.blt (a b : Exq) : Bool := a.num * b.den < b.num * a.den

/-- Non-strict order by cross multiplication. -/
def Exq.ble (a b : Exq) : Bool := a.num * b.den ≤ b.num * a.den

/-- Extended f64 value: NaN, infinities, or an (idealized exact) finite
value. -/
inductive EF
  | nan
  | pinf
  | ninf
  | fin (q : Exq)
  deriving DecidableEq

/-- IEEE negation. -/
def EF.neg : EF → EF
  | nan => nan
  | pinf => ninf
  | ninf => pinf
  | fin q => fin q.neg

/-- IEEE addition (finite part exact). -/
def EF.add : EF → EF → EF
  | nan, _ => nan
  | _, nan => nan
  | pinf, ninf => nan
  | ninf, pinf => nan
  | pinf, _ => pinf
  | _, pinf => pinf
  | ninf, _ => ninf
  | _, ninf => ninf
  | fin a, fin b => fin (a.add b)

/-- IEEE subtraction. -/
def EF.sub (a b : EF) : EF := EF.add a (EF.neg b)

/-- IEEE multiplication (finite part exact, zero treated unsigned). -/
def EF.mul : EF → EF → EF
  | nan, _ => nan
  | _, nan => nan
  | pinf, pinf => pinf
  | pinf, ninf => ninf
  | ninf, pinf => ninf
  | ninf, ninf => pinf
  | pinf, fin q => if q.num = 0 then nan else if 0 < q.num then pinf else ninf
  | fin q, pinf => if q.num = 0 then nan else if 0 < q.num then pinf else ninf
  | ninf, fin q => if q.num = 0 then nan else if 0 < q.num then ninf else pinf
  | fin q, ninf => if q.num = 0 then nan else if 0 < q.num then ninf else pinf
  | fin a, fin b => fin (a.mul b)

/-- IEEE division (finite part exact, zero treated unsigned). -/
def EF.div : EF → EF → EF
  | nan, _ => nan
  | _, nan => nan
  | pinf, pinf => nan
  | pinf, ninf => nan
  | ninf, pinf => nan
  | ninf, ninf => nan
  | pinf, fin q => if 0 ≤ q.num then pinf else ninf
  | ninf, fin q => if 0 ≤ q.num then ninf else pinf
  | fin _, pinf => fin (Exq.mk2 0 1)
  | fin _, ninf => fin (Exq.mk2 0 1)
  | fin a, fin b =>
      if b.num = 0 then
        (if a.num = 0 then nan else if 0 < a.num then pinf else ninf)
      else fin (a.div b)

/-- IEEE strict comparison: false whenever NaN is involved. -/
def EF.lt : EF → EF → Bool
  | nan, _ => false
  | _, nan => false
  | ninf, ninf => false
  | ninf, _ => true
  | pinf, _ => false
  | fin _, pinf => true
  | fin _, ninf => false
  | fin a, fin b => a.blt b

/-- IEEE non-strict comparison: false whenever NaN is involved. -/
def EF.le : EF → EF → Bool
  | nan, _ => false
  | _, nan => false
  | ninf, _ => true
  | _, pinf => true
  | pinf, _ => false
  | fin _, ninf => false
  | fin a, fin b => a.ble b

/-- Rust a > b is b < a. -/
def EF.gt (a b : EF) : Bool := EF.lt b a

/-- Rust f64 max: ignores a NaN operand. -/
def EF.maxf : EF → EF → EF
  | nan, b => b
  | a, nan => a
  | a, b => if EF.lt a b then b else a

/-- Rust f64 min: ignores a NaN operand. -/
def EF.minf : EF → EF → EF
  | nan, b => b
  | a, nan => a
  | a, b => if EF.lt b a then b else a

/-- Rust f64 abs. -/
def EF.abs : EF → EF
  | nan => nan
  | pinf => pinf
  | ninf => pinf
  | fin q => fin q.abs

/-- Rust f64 clamp: min if below, max if above, NaN stays NaN. -/
def EF.clamp (x lo hi : EF) : EF :=
  if EF.lt x lo then lo else if EF.lt hi x then hi else x

/-- Embedding of the result record of the optimizer (math.rs,
OptimalAmountResult). -/
structure OptimalAmountResult where
  optimal_amount : EF
  expected_profit : EF
  converged : Bool
  iterations : ℕ
  deriving DecidableEq

/-- Embedding of the liquidity-based upper bound of the optimizer:
max_amount_weth.min(liq_cap_sell.max(0.001)).min(liq_cap_buy.max(0.001)),
where the two caps are the max_safe_swap_amount outputs. -/
def optimizer_effective_max (liq_cap_sell liq_cap_buy max_amount_weth : EF) : EF :=
  EF.minf (EF.minf max_amount_weth (EF.maxf liq_cap_sell (EF.fin (Exq.mk2 1 1000))))
    (EF.maxf liq_cap_buy (EF.fin (Exq.mk2 1 1000)))

/-- Embedding of the coarse-scan evaluation point of the optimizer:
min_amount + (effective_max - min_amount) * (i / 40) ^ 2 for i = 1..40. -/
def scan_amount (min_amount effective_max : EF) (i : ℕ) : EF :=
  EF.add min_amount
    (EF.mul (EF.mul (EF.sub effective_max min_amount) (EF.fin (Exq.mk2 (i : ℤ) 40)))
      (EF.fin (Exq.mk2 (i : ℤ) 40)))

/-- One iteration of the coarse scan: keep the best (profit, amount) pair,
where a profit replaces the incumbent only when it compares strictly
greater. -/
def scan_step (P : EF → EF) (min_amount effective_max : EF)
    (best : EF × EF) (i : ℕ) : EF × EF :=
  let amount := scan_amount min_amount effective_max i
  let profit := P amount
  if EF.gt profit best.1 then (profit, amount) else best

/-- Embedding of profit_derivative (math.rs): central finite difference
with adaptive step h = max(x * 1e-7, 1e-10). -/
def profit_derivative (P : EF → EF) (x : EF) : EF :=
  let h := EF.maxf (EF.mul x (EF.fin (Exq.mk2 1 (10 ^ 7)))) (EF.fin (Exq.mk2 1 (10 ^ 10)))
  EF.div (EF.sub (P (EF.add x h)) (P (EF.sub x h)))
    (EF.mul (EF.fin (Exq.mk2 2 1)) h)

/-- Embedding of profit_second_derivative (math.rs): central finite
difference of the first derivative with h = max(x * 1e-5, 1e-8). -/
def profit_second_derivative (P : EF → EF) (x : EF) : EF :=
  let h := EF.maxf (EF.mul x (EF.fin (Exq.mk2 1 (10 ^ 5)))) (EF.fin (Exq.mk2 1 (10 ^ 8)))
  EF.div (EF.sub (profit_derivative P (EF.add x h))
    (profit_derivative P (EF.sub x h))) (EF.mul (EF.fin (Exq.mk2 2 1)) h)

/-- Embedding of the Newton refinement loop of the optimizer, fuel 50:
break when the second derivative is below 1e-20 in magnitude, damp the
step to one quarter when it exceeds effective_max / 2, clamp into
range, converge when the update is below 1e-8. -/
def newton_loop (P : EF → EF) (min_amount effective_max : EF) :
    ℕ → ℕ → EF → EF × Bool × ℕ
  | 0, iters, x => (x, false, iters)
  | fuel + 1, iters, x =>
      let iters2 := iters + 1
      let f1 := profit_derivative P x
      let f2 := profit_second_derivative P x
      if EF.lt (EF.abs f2) (EF.fin (Exq.mk2 1 (10 ^ 20))) then (x, false, iters2)
      else
        let step := EF.div f1 f2
        let x_new0 := EF.sub x step
        let x_new1 :=
          if EF.gt (EF.abs (EF.sub x_new0 x))
              (EF.mul effective_max (EF.fin (Exq.mk2 1 2)))
          then EF.sub x (EF.mul step (EF.fin (Exq.mk2 1 4))) else x_new0
        let x_new := EF.clamp x_new1 min_amount effective_max
        if EF.lt (EF.abs (EF.sub x_new x)) (EF.fin (Exq.mk2 1 (10 ^ 8)))
        then (x_new, true, iters2)
        else newton_loop P min_amount effective_max fuel iters2 x_new

/-- Embedding of find_optimal_amount_with_bitmap (math.rs), with the two
liquidity caps and the profit function as parameters (see the section
comment).  Mirrors the source control flow: early return when the
effective bound is at most min_amount = 0.0001, the 40-point coarse scan
from (best_profit, best_amount) = (-infinity, 0), the early return with
zero amount when best_profit stayed at the -infinity sentinel or
best_amount is non-positive, then the Newton refinement and a final
profit evaluation. -/
def find_optimal_amount_with_bitmap (P : EF → EF)
    (liq_cap_sell liq_cap_buy max_amount_weth : EF) : OptimalAmountResult :=
  let min_amount := EF.fin (Exq.mk2 1 (10 ^ 4))
  let effective_max := optimizer_effective_max liq_cap_sell liq_cap_buy
    max_amount_weth
  if EF.le effective_max min_amount then
    ⟨EF.fin (Exq.mk2 0 1), EF.fin (Exq.mk2 0 1), false, 0⟩
  else
    let best := (List.range' 1 40).foldl
      (scan_step P min_amount effective_max) (EF.ninf, EF.fin (Exq.mk2 0 1))
    if EF.le best.1 (EF.add EF.ninf (EF.fin (Exq.mk2 1 1)))
        || EF.le best.2 (EF.fin (Exq.mk2 0 1)) then
      ⟨EF.fin (Exq.mk2 0 1), EF.maxf best.1 (EF.fin (Exq.mk2 0 1)), false, 0⟩
    else
      let nr := newton_loop P min_amount effective_max 50 0 best.2
      ⟨nr.1, P nr.1, nr.2.1, nr.2.2⟩

set_option maxRecDepth 40000 in
/-- C3 counterexample: with the constant profit function -1 (finite and
non-positive everywhere, as a huge gas cost produces), no coarse-scan point
has positive profit, yet the optimizer returns a positive optimal_amount
(the first scan point, min_amount + (effective_max - min_amount) / 1600 =
101599 / 16000000), not zero. -/
theorem find_optimal_nonpositive_scan_counterexample :
    ((List.range' 1 40).all fun i =>
      !(EF.gt ((fun _ : EF => EF.fin (Exq.mk2 (-1) 1))
          (scan_amount (EF.fin (Exq.mk2 1 (10 ^ 4)))
            (optimizer_effective_max (EF.fin (Exq.mk2 100 1))
              (EF.fin (Exq.mk2 100 1)) (EF.fin (Exq.mk2 10 1))) i))
        (EF.fin (Exq.mk2 0 1)))) = true ∧
    (find_optimal_amount_with_bitmap (fun _ : EF => EF.fin (Exq.mk2 (-1) 1))
        (EF.fin (Exq.mk2 100 1)) (EF.fin (Exq.mk2 100 1))
        (EF.fin (Exq.mk2 10 1))).optimal_amount
      = EF.fin (Exq.mk2 101599 16000000) ∧
    EF.fin (Exq.mk2 101599 16000000) ≠ EF.fin (Exq.mk2 0 1) := by
  refine ⟨by decide, by decide, by decide⟩

/-- Helper: the coarse scan keeps the sentinel pair when no scanned profit
compares greater than minus infinity. -/
theorem scan_fold_sentinel (P : EF → EF) (m e : EF) (l : List ℕ)
    (h : ∀ i ∈ l, EF.gt (P (scan_amount m e i)) EF.ninf = false) :
    l.foldl (scan_step P m e) (EF.ninf, EF.fin (Exq.mk2 0 1))
      = (EF.ninf, EF.fin (Exq.mk2 0 1)) := by
  induction l with
  | nil => rfl
  | cons i l ih =>
    rw [List.foldl_cons]
    have hi := h i (List.mem_cons_self i l)
    have hstep : scan_step P m e (EF.ninf, EF.fin (Exq.mk2 0 1)) i
        = (EF.ninf, EF.fin (Exq.mk2 0 1)) := by
      unfold scan_step
      simp only [hi, Bool.false_eq_true, if_false]
    rw [hstep]
    exact ih fun j hj => h j (List.mem_cons_of_mem i hj)

/-- C3 (amended): the optimizer returns a zero optimal_amount when every
one of the 40 coarse-scan points has a profit that does not compare
greater than the minus-infinity sentinel (the sentinel is returned by the
profit function exactly when the amount is non-positive or one of the two
swap legs produces no positive output; a NaN also fails the comparison).
A merely non-positive finite profit does not produce the zero return. -/
theorem find_optimal_zero_when_scan_neginf (P : EF → EF)
    (liq_cap_sell liq_cap_buy max_amount_weth : EF)
    (h : ∀ i ∈ List.range' 1 40,
      EF.gt (P (scan_amount (EF.fin (Exq.mk2 1 (10 ^ 4)))
        (optimizer_effective_max liq_cap_sell liq_cap_buy max_amount_weth) i))
        EF.ninf = false) :
    (find_optimal_amount_with_bitmap P liq_cap_sell liq_cap_buy
        max_amount_weth).optimal_amount = EF.fin (Exq.mk2 0 1) := by
  unfold find_optimal_amount_with_bitmap
  by_cases hle : EF.le (optimizer_effective_max liq_cap_sell liq_cap_buy
      max_amount_weth) (EF.fin (Exq.mk2 1 (10 ^ 4)))
  · simp only [hle, if_true]
  · simp only [hle, Bool.false_eq_true, if_false]
    rw [scan_fold_sentinel P _ _ _ h]
    rw [if_pos (by decide :
      (EF.le EF.ninf (EF.add EF.ninf (EF.fin (Exq.mk2 1 1)))
        || EF.le (EF.fin (Exq.mk2 0 1)) (EF.fin (Exq.mk2 0 1))) = true)]

set_option maxRecDepth 40000 in
/-- Witness for find_optimal_zero_when_scan_neginf: the constant
minus-infinity profit function. -/
theorem find_optimal_zero_when_scan_neginf_witness :
    (find_optimal_amount_with_bitmap (fun _ : EF => EF.ninf)
        (EF.fin (Exq.mk2 100 1)) (EF.fin (Exq.mk2 100 1))
        (EF.fin (Exq.mk2 10 1))).optimal_amount = EF.fin (Exq.mk2 0 1) :=
  find_optimal_zero_when_scan_neginf (fun _ : EF => EF.ninf)
    (EF.fin (Exq.mk2 100 1)) (EF.fin (Exq.mk2 100 1))
    (EF.fin (Exq.mk2 10 1)) (by decide)

/-! ## Circuit breaker and failure counter (src/Bot/src/strategy.rs,
evaluate_and_execute; src/Bot/src/main.rs, run_bot)

One iteration of the block loop is modelled as a step function on an
explicit state.  The per-block input says whether all pools synced and, if
an opportunity was detected, how handling it went: the mathematical
simulation failed, or it succeeded and the trade was not submitted
(shadow or observation mode), submitted successfully, or submitted and
rejected (the spawned task then rolls the nonce back).  Network effects
and log output are irrelevant to the claim and are not modelled. -/

/-- Outcome of evaluate_and_execute for one detected opportunity. -/
inductive SimEvent
  | sim_failed
  | sim_ok_no_submit
  | sim_ok_submit_ok
  | sim_ok_submit_failed
  deriving DecidableEq

/-- State of the block loop: the consecutive-failure counter of
ArbitrageStats, the nonce counter, the exit status once
std::process::exit was called, and a ghost count of opportunities that
reached evaluate_and_execute. -/
structure LoopState where
  consecutive_failures : ℕ
  nonce : ℕ
  exited_code : Option ℕ
  opportunities_processed : ℕ
  deriving DecidableEq

/-- Per-block input of the loop body. -/
structure BlockInput where
  all_synced : Bool
  opportunity : Option SimEvent
  deriving DecidableEq

/-- Embedding of the counter update of evaluate_and_execute: a failed
simulation increments consecutive_failures, a successful one resets it to
zero (whatever later happens to the submission). -/
def evaluate_counter (ev : SimEvent) (cf : ℕ) : ℕ :=
  match ev with
  | SimEvent.sim_failed => cf + 1
  | _ => 0

/-- Embedding of the nonce effect of evaluate_and_execute: submission
allocates a nonce with get_and_increment; a failed submission rolls it
back in the spawned task; no submission leaves it alone. -/
def evaluate_nonce (ev : SimEvent) (n : ℕ) : ℕ :=
  match ev with
  | SimEvent.sim_ok_submit_ok => (nonce_get_and_increment n).2
  | SimEvent.sim_ok_submit_failed => nonce_rollback (nonce_get_and_increment n).2
  | _ => n

/-- Embedding of one iteration of the run_bot block loop (main.rs): when
all pools synced, the circuit breaker is checked first (at or above the
threshold the process exits with status 1, before any opportunity is
looked at); only below the threshold is a detected opportunity handed to
evaluate_and_execute.  A block with a failed sync skips both. -/
def loop_step (threshold : ℕ) (s : LoopState) (inp : BlockInput) : LoopState :=
  if s.exited_code.isSome then s
  else if inp.all_synced then
    if threshold ≤ s.consecutive_failures then { s with exited_code := some 1 }
    else
      match inp.opportunity with
      | none => s
      | some ev =>
          { s with
            consecutive_failures := evaluate_counter ev s.consecutive_failures,
            nonce := evaluate_nonce ev s.nonce,
            opportunities_processed := s.opportunities_processed + 1 }
  else s

/-- Helper: an exited state absorbs every further block. -/
theorem loop_step_exited (threshold : ℕ) (inps : List BlockInput) :
    ∀ s : LoopState, s.exited_code.isSome = true →
    inps.foldl (loop_step threshold) s = s := by
  induction inps with
  | nil => intro s _; rfl
  | cons inp inps ih =>
    intro s hs
    rw [List.foldl_cons, show loop_step threshold s inp = s from by
      unfold loop_step; rw [if_pos hs]]
    exact ih s hs

/-- C6: the consecutive-failure counter is incremented exactly by a failed
simulation and reset by a successful one; a submission failure does not
touch it (it only rolls the nonce back, leaving the counter at the reset
value zero and the nonce unchanged); and from any state at or above the
threshold, a run of further blocks processes no opportunity at all and, at
the first fully synced block, exits the process with status 1 (if no
further block syncs, the state stays put, still processing nothing). -/
theorem circuit_breaker_spec :
    (∀ (threshold : ℕ) (s : LoopState) (ev : SimEvent),
      s.exited_code = none → s.consecutive_failures < threshold →
      ((loop_step threshold s ⟨true, some ev⟩).consecutive_failures
          = if ev = SimEvent.sim_failed then s.consecutive_failures + 1 else 0) ∧
      (s.nonce < 2 ^ 64 →
        (loop_step threshold s ⟨true, some SimEvent.sim_ok_submit_failed⟩).nonce
          = s.nonce)) ∧
    (∀ (threshold : ℕ) (s : LoopState) (inps : List BlockInput),
      threshold ≤ s.consecutive_failures → s.exited_code = none →
      (inps.foldl (loop_step threshold) s).opportunities_processed
          = s.opportunities_processed ∧
      ((inps.foldl (loop_step threshold) s).exited_code = some 1 ∨
        (inps.foldl (loop_step threshold) s = s ∧
          ∀ inp ∈ inps, inp.all_synced = false))) := by
  constructor
  · intro threshold s ev hs hcf
    have hstep : ∀ e, loop_step threshold s ⟨true, some e⟩
        = { s with
            consecutive_failures := evaluate_counter e s.consecutive_failures,
            nonce := evaluate_nonce e s.nonce,
            opportunities_processed := s.opportunities_processed + 1 } := by
      intro e
      unfold loop_step
      rw [if_neg (by rw [hs]; simp), if_pos rfl, if_neg (by omega)]
    refine ⟨?_, ?_⟩
    · rw [hstep ev]
      cases ev <;> simp [evaluate_counter]
    · intro hn
      rw [hstep SimEvent.sim_ok_submit_failed]
      show nonce_rollback (nonce_get_and_increment s.nonce).2 = s.nonce
      unfold nonce_rollback nonce_get_and_increment
      omega
  · intro threshold s inps hcf hs
    induction inps with
    | nil => exact ⟨rfl, Or.inr ⟨rfl, by simp⟩⟩
    | cons inp inps ih =>
      rw [List.foldl_cons]
      by_cases hsync : inp.all_synced = true
      · have hstep : loop_step threshold s inp = { s with exited_code := some 1 } := by
          unfold loop_step
          rw [if_neg (by rw [hs]; simp), if_pos hsync, if_pos hcf]
        rw [hstep, loop_step_exited threshold inps _ (by simp)]
        exact ⟨rfl, Or.inl rfl⟩
      · have hstep : loop_step threshold s inp = s := by
          unfold loop_step
          rw [if_neg (by rw [hs]; simp), if_neg hsync]
        rw [hstep]
        rcases ih with ⟨h1, h2⟩
        refine ⟨h1, ?_⟩
        rcases h2 with h2 | ⟨h2, h3⟩
        · exact Or.inl h2
        · refine Or.inr ⟨h2, ?_⟩
          intro j hj
          rcases List.mem_cons.mp hj with rfl | hj2
          · simpa using hsync
          · exact h3 j hj2

/-- Witness for circuit_breaker_spec: from a tripped state, one synced
block exits with status 1 and processes nothing. -/
theorem circuit_breaker_spec_witness :
    (([⟨true, some SimEvent.sim_failed⟩] : List BlockInput).foldl (loop_step 3)
        ⟨3, 7, none, 5⟩).opportunities_processed = 5 ∧
    (([⟨true, some SimEvent.sim_failed⟩] : List BlockInput).foldl (loop_step 3)
        ⟨3, 7, none, 5⟩).exited_code = some 1 := by
  have h := circuit_breaker_spec.2 3 ⟨3, 7, none, 5⟩
    [⟨true, some SimEvent.sim_failed⟩] (by norm_num) rfl
  refine ⟨h.1, ?_⟩
  rcases h.2 with h2 | ⟨_, h3⟩
  · exact h2
  · exact absurd (h3 ⟨true, some SimEvent.sim_failed⟩ (by simp)) (by simp)

/-! ## Tick recovery from a float sqrt price (src/Bot/src/math.rs,
sqrt_price_x96_to_tick)

The function is pure f64 code guarded at every step.  It is embedded over
EF with the three arithmetic operations it applies (the division by the
Q96 constant, the squaring multiplication, and the natural logarithm)
taken as arbitrary total functions on EF, so the theorem below holds for
every possible rounding or overflow behaviour of the real f64 operations;
the guards and the final clamp alone force the result into the legal
range.  The saturating i64 cast of the floored tick precedes the clamp as
in the source. -/

/-- True exactly on the NaN value. -/
def EF.is_nan : EF → Bool
  | nan => true
  | _ => false

/-- True exactly on the two infinities. -/
def EF.is_infinite : EF → Bool
  | pinf => true
  | ninf => true
  | _ => false

/-- Embedding of sqrt_price_x96_to_tick (math.rs) with the f64 division,
multiplication and logarithm as parameters.  Q96 is 2 ^ 96 (exactly
representable in f64) and the LOG_TICK_BASE constant is the source literal
0.00009999500033.  The intermediate price (sqrt_price_x96 / Q96) squared is
named first so that each guard of the source is visible. -/
def tick_price_expr (fdiv fmul : EF → EF → EF) (sqrt_price_x96 : EF) : EF :=
  fmul (fdiv sqrt_price_x96 (EF.fin (Exq.mk2 (2 ^ 96) 1)))
    (fdiv sqrt_price_x96 (EF.fin (Exq.mk2 (2 ^ 96) 1)))

/-- The raw tick before flooring: ln(price) / LOG_TICK_BASE. -/
def tick_raw_expr (fdiv fmul : EF → EF → EF) (fln : EF → EF)
    (sqrt_price_x96 : EF) : EF :=
  fdiv (fln (tick_price_expr fdiv fmul sqrt_price_x96))
    (EF.fin (Exq.mk2 9999500033 (10 ^ 14)))

/-- Floor of a finite raw tick, cast saturating into i64, then clamped to
the legal Uniswap range exactly as in the source. -/
def tick_floor_clamp : EF → ℤ
  | EF.fin q =>
      max (-887272) (min 887272
        (max (-(2 ^ 63)) (min (2 ^ 63 - 1) (Int.fdiv q.num q.den))))
  | _ => 0

/-- Embedding of the guarded body of sqrt_price_x96_to_tick. -/
def sqrt_price_x96_to_tick (fdiv fmul : EF → EF → EF) (fln : EF → EF)
    (sqrt_price_x96 : EF) : ℤ :=
  if EF.le sqrt_price_x96 (EF.fin (Exq.mk2 0 1)) || EF.is_nan sqrt_price_x96
      || EF.is_infinite sqrt_price_x96 then 0
  else if EF.le (tick_price_expr fdiv fmul sqrt_price_x96) (EF.fin (Exq.mk2 0 1))
      || EF.is_nan (tick_price_expr fdiv fmul sqrt_price_x96)
      || EF.is_infinite (tick_price_expr fdiv fmul sqrt_price_x96) then 0
  else if EF.is_nan (tick_raw_expr fdiv fmul fln sqrt_price_x96)
      || EF.is_infinite (tick_raw_expr fdiv fmul fln sqrt_price_x96) then 0
  else tick_floor_clamp (tick_raw_expr fdiv fmul fln sqrt_price_x96)

/-- C10: sqrt_price_x96_to_tick is total and its result always lies in
[-887272, 887272] whatever the f64 arithmetic does; it returns 0 whenever
the input is non-positive, NaN or infinite, whenever the intermediate
price is non-positive, NaN or infinite, and whenever the raw logarithmic
tick is NaN or infinite. -/
theorem sqrt_price_x96_to_tick_total_range (fdiv fmul : EF → EF → EF)
    (fln : EF → EF) (x : EF) :
    (-887272 ≤ sqrt_price_x96_to_tick fdiv fmul fln x ∧
      sqrt_price_x96_to_tick fdiv fmul fln x ≤ 887272) ∧
    ((EF.le x (EF.fin (Exq.mk2 0 1)) || EF.is_nan x || EF.is_infinite x) = true →
      sqrt_price_x96_to_tick fdiv fmul fln x = 0) ∧
    ((EF.le (tick_price_expr fdiv fmul x) (EF.fin (Exq.mk2 0 1))
        || EF.is_nan (tick_price_expr fdiv fmul x)
        || EF.is_infinite (tick_price_expr fdiv fmul x)) = true →
      sqrt_price_x96_to_tick fdiv fmul fln x = 0) ∧
    ((EF.is_nan (tick_raw_expr fdiv fmul fln x)
        || EF.is_infinite (tick_raw_expr fdiv fmul fln x)) = true →
      sqrt_price_x96_to_tick fdiv fmul fln x = 0) := by
  unfold sqrt_price_x96_to_tick
  refine ⟨?_, ?_, ?_, ?_⟩
  · split_ifs with h1 h2 h3
    · exact ⟨by norm_num, by norm_num⟩
    · exact ⟨by norm_num, by norm_num⟩
    · exact ⟨by norm_num, by norm_num⟩
    · rcases hr : tick_raw_expr fdiv fmul fln x with _ | _ | _ | q <;>
        simp only [tick_floor_clamp, hr] <;> omega
  · intro h
    rw [if_pos h]
  · intro h
    split_ifs <;> rfl
  · intro h
    split_ifs <;> rfl

/-- Witness for sqrt_price_x96_to_tick_total_range: a negative input under
arbitrary arithmetic returns 0. -/
theorem sqrt_price_x96_to_tick_total_range_witness :
    sqrt_price_x96_to_tick (fun _ _ => EF.nan) (fun _ _ => EF.nan)
      (fun _ => EF.nan) (EF.fin (Exq.mk2 (-5) 1)) = 0 :=
  (sqrt_price_x96_to_tick_total_range (fun _ _ => EF.nan) (fun _ _ => EF.nan)
    (fun _ => EF.nan) (EF.fin (Exq.mk2 (-5) 1))).2.1 (by decide)

/-! ## Tick to sqrt price (src/Bot/src/math.rs, exact::get_sqrt_ratio_at_tick)

The source starts from a Q128 ratio selected by bit 0 of the absolute
tick, multiplies in one magic constant per set bit through
mul_div(ratio, c, 1 << 128), takes U256::MAX / ratio for positive ticks,
and shifts down to Q96 rounding up.  The embedding below keeps the magic
table in source order as (mask, constant) pairs.  For the monotonicity
proof the ladder is re-expressed as a fold over the selected constants
(every mul_div call here sits on the exact checked-product path because
the running ratio never exceeds 2 ^ 128), the 20 tick bits are split into
the low ten and the high ten, and floor-gap transfer bounds reduce the
full range to three small exhaustive checks. -/

/-- Magic multiplication table of get_sqrt_ratio_at_tick, one entry per
absolute-tick bit from 0x2 up to 0x80000, in source order. -/
def tick_bit_table : List (ℕ × ℕ) :=
  [(0x2, 0xfff97272373d413259a46990580e213a),
   (0x4, 0xfff2e50f5f656932ef12357cf3c7fdcc),
   (0x8, 0xffe5caca7e10e4e61c3624eaa0941cd0),
   (0x10, 0xffcb9843d60f6159c9db58835c926644),
   (0x20, 0xff973b41fa98c081472e6896dfb254c0),
   (0x40, 0xff2ea16466c96a3843ec78b326b52861),
   (0x80, 0xfe5dee046a99a2a811c461f1969c3053),
   (0x100, 0xfcbe86c7900a88aedcffc83b479aa3a4),
   (0x200, 0xf987a7253ac413176f2b074cf7815e54),
   (0x400, 0xf3392b0822b70005940c7a398e4b70f3),
   (0x800, 0xe7159475a2c29b7443b29c7fa6e889d9),
   (0x1000, 0xd097f3bdfd2022b8845ad8f792aa5825),
   (0x2000, 0xa9f746462d870fdf8a65dc1f90e061e5),
   (0x4000, 0x70d869a156d2a1b890bb3df62baf32f7),
   (0x8000, 0x31be135f97d08fd981231505542fcfa6),
   (0x10000, 0x9aa508b5b7a84e1c677de54f3e99bc9),
   (0x20000, 0x5d6af8dedb81196699c329225ee604),
   (0x40000, 0x2216e584f5fa1ea926041bedfe98),
   (0x80000, 0x48a170391f7dc42444e8fa2)]

/-- Initial Q128 ratio selected by bit 0 of the absolute tick. -/
def init_ratio (abs_tick : ℕ) : ℕ :=
  if abs_tick &&& 1 ≠ 0 then 0xfffcb933bd6fad37aa2d162d1a594001 else 2 ^ 128

/-- Sequential application of the magic table (the apply_tick_bit loop of
the source): each set bit multiplies the running ratio by its constant
through mul_div with denominator 2 ^ 128. -/
def apply_tick_bits (abs_tick : ℕ) : List (ℕ × ℕ) → ℕ → ℕ
  | [], ratio => ratio
  | (m, c) :: rest, ratio =>
      apply_tick_bits abs_tick rest
        (if abs_tick &&& m ≠ 0 then mul_div ratio c (2 ^ 128) else ratio)

/-- The complete Q128 product ladder of get_sqrt_ratio_at_tick. -/
def sqrt_ratio_ladder (abs_tick : ℕ) : ℕ :=
  apply_tick_bits abs_tick tick_bit_table (init_ratio abs_tick)

/-- Final Q128 to Q96 conversion of the source: shift right by 32 and
round up when a remainder was dropped. -/
def shift_round (r : ℕ) : ℕ :=
  (r >>> 32) + (if 0 < r % 2 ^ 32 then 1 else 0)

/-- Embedding of exact::get_sqrt_ratio_at_tick (math.rs): the ladder on
the absolute tick, reciprocated against U256::MAX for positive ticks, then
the rounding downshift.  The source asserts abs_tick at most 887272; the
claims below stay inside that range. -/
def get_sqrt_ratio_at_tick (tick : ℤ) : ℕ :=
  if 0 < tick then shift_round ((2 ^ 256 - 1) / sqrt_ratio_ladder tick.natAbs)
  else shift_round (sqrt_ratio_ladder tick.natAbs)

/-- Exact single step of the ladder: every mul_div of the ladder sits on
its checked-product path. -/
def mulShift (v c : ℕ) : ℕ := v * c / 2 ^ 128

/-- Helper: mul_div agrees with mulShift whenever the running ratio is at
most 2 ^ 128 and the constant is below 2 ^ 128 (the checked product then
never overflows). -/
theorem mul_div_eq_mulShift (v c : ℕ) (hv : v ≤ 2 ^ 128) (hc : c < 2 ^ 128) :
    mul_div v c (2 ^ 128) = mulShift v c := by
  unfold mul_div mulShift
  rw [if_neg (by positivity)]
  by_cases h0 : v = 0 ∨ c = 0
  · rw [if_pos h0]
    rcases h0 with h0 | h0 <;> simp [h0]
  · rw [if_neg h0, if_pos]
    calc v * c ≤ 2 ^ 128 * c := Nat.mul_le_mul_right c hv
      _ < 2 ^ 128 * 2 ^ 128 := by omega
      _ = 2 ^ 256 := by norm_num

/-- Helper: one ladder step never increases the ratio when the constant is
at most 2 ^ 128. -/
theorem mulShift_le (v c : ℕ) (hc : c ≤ 2 ^ 128) : mulShift v c ≤ v := by
  unfold mulShift
  calc v * c / 2 ^ 128 ≤ v * 2 ^ 128 / 2 ^ 128 :=
        Nat.div_le_div_right (Nat.mul_le_mul_left v hc)
    _ = v := Nat.mul_div_cancel v (by positivity)

/-- Helper: mulShift is monotone in the ratio argument. -/
theorem mulShift_mono (c : ℕ) {v1 v2 : ℕ} (h : v1 ≤ v2) :
    mulShift v1 c ≤ mulShift v2 c :=
  Nat.div_le_div_right (Nat.mul_le_mul_right c h)

/-- Helper: floors superadd, giving one step of the gap transfer. -/
theorem mulShift_superadd (v d c : ℕ) :
    mulShift v c + mulShift d c ≤ mulShift (v + d) c := by
  unfold mulShift
  rw [Nat.le_div_iff_mul_le (by positivity : 0 < (2 : ℕ) ^ 128)]
  calc (v * c / 2 ^ 128 + d * c / 2 ^ 128) * 2 ^ 128
      = v * c / 2 ^ 128 * 2 ^ 128 + d * c / 2 ^ 128 * 2 ^ 128 := by ring
    _ ≤ v * c + d * c := by
        exact Nat.add_le_add (Nat.div_mul_le_self _ _) (Nat.div_mul_le_self _ _)
    _ = (v + d) * c := by ring

/-- Fold of selected ladder constants over a starting ratio. -/
def applyChain : List ℕ → ℕ → ℕ
  | [], v => v
  | c :: cs, v => applyChain cs (mulShift v c)

/-- Selection of constants by the binary digits of the bit field. -/
def selConsts : List ℕ → ℕ → List ℕ
  | [], _ => []
  | c :: cs, b => (if b % 2 = 1 then [c] else []) ++ selConsts cs (b / 2)

/-- Lower bound transferred through a constant chain: each step scales the
incoming gap by c / 2 ^ 128, rounded down. -/
def dLB : List ℕ → ℕ → ℕ
  | [], d => d
  | c :: cs, d => dLB cs (d * c / 2 ^ 128)

/-- Masks paired with constants, mask 2 ^ k onward. -/
def pow_table : ℕ → List ℕ → List (ℕ × ℕ)
  | _, [] => []
  | k, c :: cs => (2 ^ k, c) :: pow_table (k + 1) cs

/-- Helper: a bitmask test is a binary digit test. -/
theorem and_pow_ne_zero (a k : ℕ) : (a &&& 2 ^ k ≠ 0) ↔ a / 2 ^ k % 2 = 1 := by
  have hpow : (2 : ℕ) ^ k ≠ 0 := (by positivity : (0 : ℕ) < 2 ^ k).ne'
  rw [Nat.and_two_pow, Nat.testBit_to_div_mod]
  by_cases h : a / 2 ^ k % 2 = 1
  · simp [h, hpow]
  · simp [h]

/-- Helper: applyChain distributes over list append. -/
theorem applyChain_append (l1 l2 : List ℕ) : ∀ v : ℕ,
    applyChain (l1 ++ l2) v = applyChain l2 (applyChain l1 v) := by
  induction l1 with
  | nil => intro v; rfl
  | cons c l1 ih => intro v; exact ih (mulShift v c)

/-- Helper: applyChain is monotone in the start value. -/
theorem applyChain_mono (cs : List ℕ) : ∀ {v1 v2 : ℕ}, v1 ≤ v2 →
    applyChain cs v1 ≤ applyChain cs v2 := by
  induction cs with
  | nil => intro v1 v2 h; exact h
  | cons c cs ih => intro v1 v2 h; exact ih (mulShift_mono c h)

/-- Helper: applyChain never increases the value when every constant is at
most 2 ^ 128. -/
theorem applyChain_le (cs : List ℕ) : ∀ v : ℕ, (∀ c ∈ cs, c ≤ 2 ^ 128) →
    applyChain cs v ≤ v := by
  induction cs with
  | nil => intro v _; exact le_rfl
  | cons c cs ih =>
    intro v h
    calc applyChain cs (mulShift v c) ≤ mulShift v c :=
          ih _ fun x hx => h x (List.mem_cons_of_mem c hx)
      _ ≤ v := mulShift_le v c (h c (List.mem_cons_self c cs))

/-- Helper: the gap between two chain values is at least the transferred
lower bound dLB. -/
theorem applyChain_gap (cs : List ℕ) : ∀ v d : ℕ,
    applyChain cs v + dLB cs d ≤ applyChain cs (v + d) := by
  induction cs with
  | nil => intro v d; exact le_rfl
  | cons c cs ih =>
    intro v d
    calc applyChain cs (mulShift v c) + dLB cs (d * c / 2 ^ 128)
        ≤ applyChain cs (mulShift v c + d * c / 2 ^ 128) := ih _ _
      _ ≤ applyChain cs (mulShift (v + d) c) :=
          applyChain_mono cs (mulShift_superadd v d c)

/-- Helper: dLB is monotone in the incoming gap. -/
theorem dLB_mono (cs : List ℕ) : ∀ {d1 d2 : ℕ}, d1 ≤ d2 →
    dLB cs d1 ≤ dLB cs d2 := by
  induction cs with
  | nil => intro d1 d2 h; exact h
  | cons c cs ih =>
    intro d1 d2 h
    exact ih (Nat.div_le_div_right (Nat.mul_le_mul_right c h))

/-- Helper: apply_tick_bits over a mask table starting at bit k is the
chain of the constants selected by the bits of a / 2 ^ k. -/
theorem apply_pow_table (cs : List ℕ) : ∀ (k a v : ℕ), v ≤ 2 ^ 128 →
    (∀ c ∈ cs, c < 2 ^ 128) →
    apply_tick_bits a (pow_table k cs) v = applyChain (selConsts cs (a / 2 ^ k)) v := by
  induction cs with
  | nil => intro k a v _ _; rfl
  | cons c cs ih =>
    intro k a v hv hc
    have hcc : c < 2 ^ 128 := hc c (List.mem_cons_self c cs)
    have hcs : ∀ x ∈ cs, x < 2 ^ 128 := fun x hx => hc x (List.mem_cons_of_mem c hx)
    have hdiv : a / 2 ^ k / 2 = a / 2 ^ (k + 1) := by
      rw [Nat.div_div_eq_div_mul, pow_succ]
    show apply_tick_bits a ((2 ^ k, c) :: pow_table (k + 1) cs) v = _
    rw [show apply_tick_bits a ((2 ^ k, c) :: pow_table (k + 1) cs) v
        = apply_tick_bits a (pow_table (k + 1) cs)
            (if a &&& 2 ^ k ≠ 0 then mul_div v c (2 ^ 128) else v) from rfl]
    by_cases hbit : a &&& 2 ^ k ≠ 0
    · have hb2 : a / 2 ^ k % 2 = 1 := (and_pow_ne_zero a k).mp hbit
      rw [if_pos hbit, mul_div_eq_mulShift v c hv hcc,
        ih (k + 1) a (mulShift v c)
          (le_trans (mulShift_le v c (le_of_lt hcc)) hv) hcs]
      show _ = applyChain ((if a / 2 ^ k % 2 = 1 then [c] else [])
          ++ selConsts cs (a / 2 ^ k / 2)) v
      rw [if_pos hb2, hdiv]
      rfl
    · have hb2 : ¬ a / 2 ^ k % 2 = 1 := fun hcontra =>
        hbit ((and_pow_ne_zero a k).mpr hcontra)
      rw [if_neg hbit, ih (k + 1) a v hv hcs]
      show _ = applyChain ((if a / 2 ^ k % 2 = 1 then [c] else [])
          ++ selConsts cs (a / 2 ^ k / 2)) v
      rw [if_neg hb2, hdiv]
      rfl

/-- Helper: selConsts only reads as many low bits as the list is long. -/
theorem selConsts_mod (cs : List ℕ) : ∀ b : ℕ,
    selConsts cs b = selConsts cs (b % 2 ^ cs.length) := by
  induction cs with
  | nil => intro b; rfl
  | cons c cs ih =>
    intro b
    have h2 : (2 : ℕ) ∣ 2 ^ (cs.length + 1) := dvd_pow_self 2 (Nat.succ_ne_zero _)
    have hmod2 : b % 2 ^ (cs.length + 1) % 2 = b % 2 := Nat.mod_mod_of_dvd b h2
    have hdiv : b % 2 ^ (cs.length + 1) / 2 = b / 2 % 2 ^ cs.length := by
      rw [pow_succ, mul_comm, Nat.mod_mul_right_div_self]
    show (if b % 2 = 1 then [c] else []) ++ selConsts cs (b / 2)
        = (if b % 2 ^ (cs.length + 1) % 2 = 1 then [c] else [])
          ++ selConsts cs (b % 2 ^ (cs.length + 1) / 2)
    rw [hmod2, hdiv, ih (b / 2)]

/-- Helper: selConsts splits over an append of constant lists. -/
theorem selConsts_append (cs1 : List ℕ) : ∀ (cs2 : List ℕ) (b : ℕ),
    selConsts (cs1 ++ cs2) b = selConsts cs1 b ++ selConsts cs2 (b / 2 ^ cs1.length) := by
  induction cs1 with
  | nil => intro cs2 b; simp [selConsts]
  | cons c cs1 ih =>
    intro cs2 b
    show (if b % 2 = 1 then [c] else []) ++ selConsts (cs1 ++ cs2) (b / 2)
        = ((if b % 2 = 1 then [c] else []) ++ selConsts cs1 (b / 2))
          ++ selConsts cs2 (b / 2 ^ (cs1.length + 1))
    rw [ih cs2 (b / 2), List.append_assoc,
      show b / 2 / 2 ^ cs1.length = b / 2 ^ (cs1.length + 1) by
        rw [Nat.div_div_eq_div_mul, pow_succ, mul_comm]]

/-- The 19 magic constants in source order (masks 0x2 to 0x80000). -/
def consts19 : List ℕ :=
  [0xfff97272373d413259a46990580e213a,
   0xfff2e50f5f656932ef12357cf3c7fdcc,
   0xffe5caca7e10e4e61c3624eaa0941cd0,
   0xffcb9843d60f6159c9db58835c926644,
   0xff973b41fa98c081472e6896dfb254c0,
   0xff2ea16466c96a3843ec78b326b52861,
   0xfe5dee046a99a2a811c461f1969c3053,
   0xfcbe86c7900a88aedcffc83b479aa3a4,
   0xf987a7253ac413176f2b074cf7815e54,
   0xf3392b0822b70005940c7a398e4b70f3,
   0xe7159475a2c29b7443b29c7fa6e889d9,
   0xd097f3bdfd2022b8845ad8f792aa5825,
   0xa9f746462d870fdf8a65dc1f90e061e5,
   0x70d869a156d2a1b890bb3df62baf32f7,
   0x31be135f97d08fd981231505542fcfa6,
   0x9aa508b5b7a84e1c677de54f3e99bc9,
   0x5d6af8dedb81196699c329225ee604,
   0x2216e584f5fa1ea926041bedfe98,
   0x48a170391f7dc42444e8fa2]

/-- Constants of the low tick bits 1 to 9. -/
def low_consts : List ℕ := consts19.take 9

/-- Constants of the high tick bits 10 to 19. -/
def high_consts : List ℕ := consts19.drop 9

/-- Ladder value determined by the low ten bits of the absolute tick. -/
def lowVal (L : ℕ) : ℕ := applyChain (selConsts low_consts (L / 2)) (init_ratio L)

/-- Chain of the high-bit constants applied to a low-bit ladder value. -/
def highApply (H v : ℕ) : ℕ := applyChain (selConsts high_consts H) v

/-- Helper: the source mask table is the power table of consts19 from bit 1. -/
theorem tick_bit_table_eq : tick_bit_table = pow_table 1 consts19 := by decide

/-- Helper: the initial ratio is at most 2 ^ 128 in both branches. -/
theorem init_ratio_le (a : ℕ) : init_ratio a ≤ 2 ^ 128 := by
  unfold init_ratio
  split_ifs <;> norm_num

/-- Helper: every magic constant is below 2 ^ 128. -/
theorem consts19_lt : ∀ c ∈ consts19, c < 2 ^ 128 := by decide

/-- Helper: anything selected by selConsts belongs to the constant list. -/
theorem selConsts_mem (cs : List ℕ) : ∀ (b c : ℕ), c ∈ selConsts cs b → c ∈ cs := by
  induction cs with
  | nil => intro b c hc; exact absurd hc (List.not_mem_nil c)
  | cons x cs ih =>
    intro b c hc
    rw [show selConsts (x :: cs) b
        = (if b % 2 = 1 then [x] else []) ++ selConsts cs (b / 2) from rfl] at hc
    rcases List.mem_append.mp hc with h | h
    · by_cases hb : b % 2 = 1
      · rw [if_pos hb, List.mem_singleton] at h
        exact h ▸ List.mem_cons_self x cs
      · rw [if_neg hb] at h
        exact absurd h (List.not_mem_nil c)
    · exact List.mem_cons_of_mem x (ih _ c h)

/-- Helper: the full ladder as a chain over the selected constants. -/
theorem ladder_chain (a : ℕ) :
    sqrt_ratio_ladder a = applyChain (selConsts consts19 (a / 2)) (init_ratio a) := by
  unfold sqrt_ratio_ladder
  rw [tick_bit_table_eq,
    apply_pow_table consts19 1 a (init_ratio a) (init_ratio_le a) consts19_lt,
    pow_one]

/-- Helper: the ladder never exceeds 2 ^ 128. -/
theorem ladder_le (a : ℕ) : sqrt_ratio_ladder a ≤ 2 ^ 128 := by
  rw [ladder_chain]
  calc applyChain (selConsts consts19 (a / 2)) (init_ratio a) ≤ init_ratio a :=
        applyChain_le _ _ fun c hc => le_of_lt (consts19_lt c (selConsts_mem _ _ c hc))
    _ ≤ 2 ^ 128 := init_ratio_le a

/-- Helper: the ladder splits into the low-ten-bit value pushed through the
high-bit chain. -/
theorem ladder_decompose (a : ℕ) :
    sqrt_ratio_ladder a = highApply (a / 2 ^ 10) (lowVal (a % 2 ^ 10)) := by
  rw [ladder_chain]
  have hsplit : low_consts ++ high_consts = consts19 := List.take_append_drop 9 consts19
  rw [← hsplit, selConsts_append low_consts high_consts (a / 2)]
  rw [applyChain_append]
  have hlen : low_consts.length = 9 := rfl
  have hdiv10 : a / 2 / 2 ^ 9 = a / 2 ^ 10 := by
    rw [Nat.div_div_eq_div_mul]
    norm_num
  have hsel : selConsts low_consts (a / 2) = selConsts low_consts (a % 2 ^ 10 / 2) := by
    rw [selConsts_mod low_consts (a / 2), selConsts_mod low_consts (a % 2 ^ 10 / 2), hlen]
    have : a % 2 ^ 10 / 2 % 2 ^ 9 = a / 2 % 2 ^ 9 := by omega
    rw [this]
  have hinit : init_ratio (a % 2 ^ 10) = init_ratio a := by
    unfold init_ratio
    rw [Nat.and_one_is_mod, Nat.and_one_is_mod]
    have : a % 2 ^ 10 % 2 = a % 2 := by omega
    rw [this]
  rw [hlen, hdiv10, hsel]
  unfold highApply lowVal
  rw [hinit]

/-- Helper: positivity of the ladder at the top of the tick range. -/
theorem ladder_at_top : 1 ≤ sqrt_ratio_ladder 887272 := by decide

set_option maxRecDepth 100000 in
/-- Helper (exhaustive): stepping one of the low ten bits costs the ladder
at least 2 ^ 113. -/
theorem low_gap : ∀ L : ℕ, L < 1023 → lowVal (L + 1) + 2 ^ 113 ≤ lowVal L := by decide

set_option maxRecDepth 100000 in
/-- Helper (exhaustive): a gap of 2 ^ 113 survives every high-bit chain as
at least 2 ^ 35. -/
theorem high_gap : ∀ H : ℕ, H < 867 →
    2 ^ 35 ≤ dLB (selConsts high_consts H) (2 ^ 113) := by decide

set_option maxRecDepth 100000 in
/-- Helper (exhaustive): crossing a 1024-tick boundary also costs the
ladder at least 2 ^ 35. -/
theorem boundary_gap : ∀ H : ℕ, H < 866 →
    highApply (H + 1) (lowVal 0) + 2 ^ 35 ≤ highApply H (lowVal 1023) := by decide

/-- Helper: over the whole assert range one tick up shrinks the ladder by
at least 2 ^ 35. -/
theorem ladder_gap : ∀ a : ℕ, a < 887272 →
    sqrt_ratio_ladder (a + 1) + 2 ^ 35 ≤ sqrt_ratio_ladder a := by
  intro a ha
  rw [ladder_decompose a, ladder_decompose (a + 1)]
  by_cases hL : a % 2 ^ 10 < 1023
  · have h1 : (a + 1) % 2 ^ 10 = a % 2 ^ 10 + 1 := by omega
    have h2 : (a + 1) / 2 ^ 10 = a / 2 ^ 10 := by omega
    have hH : a / 2 ^ 10 < 867 := by omega
    rw [h1, h2]
    have hlow := low_gap (a % 2 ^ 10) hL
    have hhigh := high_gap (a / 2 ^ 10) hH
    have hmono := dLB_mono (selConsts high_consts (a / 2 ^ 10))
      (show (2 : ℕ) ^ 113 ≤ lowVal (a % 2 ^ 10) - lowVal (a % 2 ^ 10 + 1) by omega)
    have htrans : highApply (a / 2 ^ 10) (lowVal (a % 2 ^ 10 + 1))
        + dLB (selConsts high_consts (a / 2 ^ 10))
            (lowVal (a % 2 ^ 10) - lowVal (a % 2 ^ 10 + 1))
        ≤ highApply (a / 2 ^ 10)
            (lowVal (a % 2 ^ 10 + 1)
              + (lowVal (a % 2 ^ 10) - lowVal (a % 2 ^ 10 + 1))) := by
      unfold highApply
      exact applyChain_gap _ _ _
    have harg : lowVal (a % 2 ^ 10 + 1) + (lowVal (a % 2 ^ 10) - lowVal (a % 2 ^ 10 + 1))
        = lowVal (a % 2 ^ 10) := by omega
    rw [harg] at htrans
    omega
  · have h1 : (a + 1) % 2 ^ 10 = 0 := by omega
    have h2 : (a + 1) / 2 ^ 10 = a / 2 ^ 10 + 1 := by omega
    have hL1023 : a % 2 ^ 10 = 1023 := by omega
    have hH : a / 2 ^ 10 < 866 := by omega
    rw [h1, h2, hL1023]
    exact boundary_gap (a / 2 ^ 10) hH

/-- Helper: the ladder everywhere in range dominates its value at the top
tick. -/
theorem ladder_ge_top (d : ℕ) : ∀ a : ℕ, a + d = 887272 →
    sqrt_ratio_ladder 887272 ≤ sqrt_ratio_ladder a := by
  induction d with
  | zero =>
    intro a ha
    rw [show a = 887272 by omega]
  | succ d ih =>
    intro a ha
    have h1 : a < 887272 := by omega
    have h2 := ladder_gap a h1
    have h3 := ih (a + 1) (by omega)
    omega

/-- Helper: the ladder is positive on the whole assert range. -/
theorem ladder_pos (a : ℕ) (ha : a ≤ 887272) : 1 ≤ sqrt_ratio_ladder a := by
  have h := ladder_ge_top (887272 - a) a (by omega)
  have hb := ladder_at_top
  omega

/-- Helper: a ladder gap of 2 ^ 35 turns into a reciprocal gap of at least
2 ^ 35 - 1 against U256::MAX. -/
theorem recip_gap (g1 g2 : ℕ) (hgap : g2 + 2 ^ 35 ≤ g1) (h1 : g1 ≤ 2 ^ 128)
    (h2 : 1 ≤ g2) :
    (2 ^ 256 - 1) / g1 + (2 ^ 35 - 1) ≤ (2 ^ 256 - 1) / g2 := by
  have hq : 2 ^ 128 - 1 ≤ (2 ^ 256 - 1) / g1 := by
    calc (2 : ℕ) ^ 128 - 1 = (2 ^ 256 - 1) / 2 ^ 128 := by decide
      _ ≤ (2 ^ 256 - 1) / g1 := Nat.div_le_div_left h1 (by omega)
  rw [Nat.le_div_iff_mul_le (by omega : 0 < g2)]
  have hmain : ((2 ^ 256 - 1) / g1) * g2 + ((2 ^ 256 - 1) / g1) * 2 ^ 35
      ≤ 2 ^ 256 - 1 := by
    calc ((2 ^ 256 - 1) / g1) * g2 + ((2 ^ 256 - 1) / g1) * 2 ^ 35
        = ((2 ^ 256 - 1) / g1) * (g2 + 2 ^ 35) := by ring
      _ ≤ ((2 ^ 256 - 1) / g1) * g1 := Nat.mul_le_mul_left _ hgap
      _ ≤ 2 ^ 256 - 1 := Nat.div_mul_le_self _ _
  have hsmall : (2 ^ 35 - 1) * g2 ≤ ((2 ^ 256 - 1) / g1) * 2 ^ 35 := by
    have hg2le : g2 ≤ 2 ^ 128 := by omega
    calc (2 ^ 35 - 1) * g2 ≤ (2 ^ 35 - 1) * 2 ^ 128 := Nat.mul_le_mul_left _ hg2le
      _ ≤ (2 ^ 128 - 1) * 2 ^ 35 := by norm_num
      _ ≤ ((2 ^ 256 - 1) / g1) * 2 ^ 35 := Nat.mul_le_mul_right _ hq
  calc ((2 ^ 256 - 1) / g1 + (2 ^ 35 - 1)) * g2
      = ((2 ^ 256 - 1) / g1) * g2 + (2 ^ 35 - 1) * g2 := by ring
    _ ≤ ((2 ^ 256 - 1) / g1) * g2 + ((2 ^ 256 - 1) / g1) * 2 ^ 35 := by omega
    _ ≤ 2 ^ 256 - 1 := hmain

/-- Helper: a gap of three rounding units forces the rounded downshift to
be strictly larger. -/
theorem shift_round_strict (r1 r2 : ℕ) (h : r1 + 3 * 2 ^ 32 ≤ r2) :
    shift_round r1 < shift_round r2 := by
  unfold shift_round
  rw [Nat.shiftRight_eq_div_pow, Nat.shiftRight_eq_div_pow]
  split_ifs <;> omega

/-- Helper: the price at tick 0 is below the price at tick 1. -/
theorem tick_zero_lt_one : get_sqrt_ratio_at_tick 0 < get_sqrt_ratio_at_tick 1 := by
  decide

/-- Helper: one tick up strictly raises the price everywhere in range. -/
theorem sqrt_ratio_adjacent (t : ℤ) (hlo : -887272 ≤ t) (hhi : t < 887272) :
    get_sqrt_ratio_at_tick t < get_sqrt_ratio_at_tick (t + 1) := by
  rcases lt_trichotomy t 0 with hneg | hzero | hpos
  · unfold get_sqrt_ratio_at_tick
    rw [if_neg (by omega : ¬ 0 < t), if_neg (by omega : ¬ 0 < t + 1)]
    have ha : t.natAbs = (t + 1).natAbs + 1 := by omega
    have hb : (t + 1).natAbs < 887272 := by omega
    have hg := ladder_gap (t + 1).natAbs hb
    rw [ha]
    apply shift_round_strict
    omega
  · rw [hzero]
    exact tick_zero_lt_one
  · unfold get_sqrt_ratio_at_tick
    rw [if_pos hpos, if_pos (by omega : (0 : ℤ) < t + 1)]
    have ha : (t + 1).natAbs = t.natAbs + 1 := by omega
    have hb : t.natAbs < 887272 := by omega
    have hg := ladder_gap t.natAbs hb
    have h1 := ladder_le t.natAbs
    have h2 := ladder_pos (t.natAbs + 1) (by omega)
    have hr := recip_gap (sqrt_ratio_ladder t.natAbs)
      (sqrt_ratio_ladder (t.natAbs + 1)) hg h1 h2
    rw [ha]
    apply shift_round_strict
    omega

/-- C4: get_sqrt_ratio_at_tick is strictly increasing on the full asserted
tick range [-887272, 887272]: a larger tick always produces a strictly
larger sqrt price. -/
theorem get_sqrt_ratio_at_tick_strict_mono :
    ∀ t1 t2 : ℤ, -887272 ≤ t1 → t1 < t2 → t2 ≤ 887272 →
      get_sqrt_ratio_at_tick t1 < get_sqrt_ratio_at_tick t2 := by
  intro t1 t2 h1 h12 h2
  have key : ∀ s : ℤ, t1 + 1 ≤ s → s ≤ 887272 →
      get_sqrt_ratio_at_tick t1 < get_sqrt_ratio_at_tick s := by
    intro s hs
    refine @Int.le_induction
      (fun r => r ≤ 887272 → get_sqrt_ratio_at_tick t1 < get_sqrt_ratio_at_tick r)
      (t1 + 1) ?_ ?_ s hs
    · intro hle
      exact sqrt_ratio_adjacent t1 h1 (by omega)
    · intro n hn ih hle
      have hstep := sqrt_ratio_adjacent n (by omega) (by omega)
      exact lt_trans (ih (by omega)) hstep
  exact key t2 (by omega) h2

theorem get_sqrt_ratio_at_tick_strict_mono_witness :
    get_sqrt_ratio_at_tick 0 < get_sqrt_ratio_at_tick 1 :=
  get_sqrt_ratio_at_tick_strict_mono 0 1 (by decide) (by decide) (by decide)

end ArbBot
